import Mathlib

/-!
Verification of the BLAST-hit interpretation engine of the staramr
repository (`staramr/blast/results/BlastResultsParser.py` and its
collaborators), against its natural-language specification.

The embedding models:
  * a BLAST hit with the fields the parser inspects
    (`get_contig`-style query interval, `get_alignment_length`,
    `get_pid`, `get_plength`); percent values are modelled as rationals;
  * the interval partitioner (`BlastHitPartitions`);
  * the threshold filter, sorting and best-hit/report-all selection of
    `BlastResultsParser._handle_blast_hit`;
  * the per-file / per-database orchestration of
    `BlastResultsParser.parse_results`, with the file system abstracted
    as a path-existence predicate plus parsed record contents, and the
    FASTA artifact writes materialised as a list of written artifacts.
-/

/-- One BLAST hit as seen by the parser: query contig and query
coordinates (already orientation-normalised, so `qstart ≤ qend` is the
data-model invariant), the alignment length, the percent identity and
the percent length.  Floats of the source are modelled as rationals. -/
structure Hit where
  contig : String
  qstart : Int
  qend : Int
  alnLength : Nat
  pid : ℚ
  plength : ℚ
  deriving DecidableEq, Repr

/-- The threshold filter of `_handle_blast_hit` (line 84):
`hit.get_pid() > self._pid_threshold and hit.get_plength() > self._plength_threshold`. -/
def passesB (pidT plT : ℚ) (h : Hit) : Bool :=
  decide (pidT < h.pid) && decide (plT < h.plength)

/-- Strict descending-sort comparison on the Python sort key
`(x.get_alignment_length(), x.get_pid(), x.get_plength())`:
`keyLt a b` holds when `a`'s key tuple is lexicographically strictly
smaller than `b`'s. -/
def keyLt (a b : Hit) : Bool :=
  decide (a.alnLength < b.alnLength) ||
    (decide (a.alnLength = b.alnLength) &&
      (decide (a.pid < b.pid) ||
        (decide (a.pid = b.pid) && decide (a.plength < b.plength))))

/-- Stable insertion of a hit into a list sorted in descending key
order: the new element goes in front of every element whose key is not
strictly larger, which models the stability guarantee of Python's
`list.sort(key=..., reverse=True)` (ties keep their original order). -/
def insertHitDesc (h : Hit) : List Hit → List Hit
  | [] => [h]
  | y :: ys => if keyLt h y then y :: insertHitDesc h ys else h :: y :: ys

/-- The in-place `hits_non_overlapping.sort(key=..., reverse=True)` of
`_handle_blast_hit` (line 88): a stable descending sort by
`(alignment length, pid, plength)`. -/
def sortHitsDesc (l : List Hit) : List Hit := l.foldr insertHitDesc []

/-- The first key-maximal element of a list (the element a stable
descending sort puts at the head). -/
def firstMaxHit : List Hit → Option Hit
  | [] => none
  | h :: t =>
    match firstMaxHit t with
    | none => some h
    | some m => if keyLt h m then some m else some h

/-- The per-cluster selection of `_handle_blast_hit` (lines 88-95):
sort the cluster in descending key order; if it is non-empty, either
report every hit (report-all mode) or only the head (best-hit mode). -/
def selectHits (reportAll : Bool) (cluster : List Hit) : List Hit :=
  if 1 ≤ (sortHitsDesc cluster).length then
    if reportAll then sortHitsDesc cluster else (sortHitsDesc cluster).take 1
  else []

/-- Modelled from the spec: `staramr/blast/results/BlastHitPartitions.py`
is not part of the sources under review, so the partition state is taken
from spec section 4.2: each cluster of the growing list keeps its contig,
its bounding query interval and its member hits. -/
structure BlastHitPartition where
  contig : String
  pstart : Int
  pend : Int
  hits : List Hit
  deriving DecidableEq, Repr

/-- Modelled from the spec: the overlap test a new hit performs against
an existing cluster's bounding interval — same contig, and
"overlap iff start ≤ other.end and end ≥ other.start" (spec 4.2). -/
def overlapsPartition (h : Hit) (p : BlastHitPartition) : Bool :=
  decide (h.contig = p.contig) && decide (h.qstart ≤ p.pend) &&
    decide (p.pstart ≤ h.qend)

/-- Modelled from the spec: merging a hit with all clusters it overlaps
into one cluster "whose bounding interval is the union" (spec 4.2). -/
def mergeInto (h : Hit) (ov : List BlastHitPartition) : BlastHitPartition :=
  { contig := h.contig
  , pstart := (ov.map (fun p => p.pstart)).foldr min h.qstart
  , pend := (ov.map (fun p => p.pend)).foldr max h.qend
  , hits := h :: (ov.map (fun p => p.hits)).flatten }

/-- Modelled from the spec: `BlastHitPartitions.append(hit)` — find all
existing clusters overlapping the incoming hit, merge the hit and those
clusters into one cluster, keep the non-overlapping clusters (spec 4.2). -/
def appendHit (ps : List BlastHitPartition) (h : Hit) : List BlastHitPartition :=
  mergeInto h (ps.filter (fun p => overlapsPartition h p)) ::
    ps.filter (fun p => ! overlapsPartition h p)

/-- Modelled from the spec: feeding an (ordered) stream of hits to a
fresh `BlastHitPartitions` object via `append`. -/
def buildPartitions (l : List Hit) : List BlastHitPartition :=
  l.foldl appendHit []

/-- Modelled from the spec:
`BlastHitPartitions.get_hits_nonoverlapping_regions()` — the member
lists of the final clusters. -/
def getHitsNonoverlappingRegions (l : List Hit) : List (List Hit) :=
  (buildPartitions l).map (fun p => p.hits)

/-- Two hits overlap: same contig and intersecting (closed) query
intervals — the interval-overlap graph's edge relation. -/
def Overlaps (a b : Hit) : Prop :=
  a.contig = b.contig ∧ a.qstart ≤ b.qend ∧ b.qstart ≤ a.qend

/-- Two hits are linked by a chain of pairwise-overlapping hits all
drawn from `l`: connectivity in the interval-overlap graph over `l`. -/
def Linked (l : List Hit) (a b : Hit) : Prop :=
  Relation.ReflTransGen (fun x y => x ∈ l ∧ y ∈ l ∧ Overlaps x y) a b

/-- Two hits land in the same output cluster of the partitioner run on
the stream `l`. -/
def InSameCluster (l : List Hit) (a b : Hit) : Prop :=
  ∃ p ∈ buildPartitions l, a ∈ p.hits ∧ b ∈ p.hits

/-- The query interval of every hit is orientation-normalised
(`query-start ≤ query-end`, spec section 3 data-model invariant). -/
def ValidHits (l : List Hit) : Prop := ∀ h ∈ l, h.qstart ≤ h.qend

/-- The body of the per-record loop of `_handle_blast_hit`
(lines 80-95): append every threshold-passing hit of the record to a
fresh partition object, then emit the per-cluster selection. -/
def recordEmit (pidT plT : ℚ) (reportAll : Bool) (recHits : List Hit) : List Hit :=
  (getHitsNonoverlappingRegions
      (recHits.filter (passesB pidT plT))).flatMap (selectHits reportAll)

/-- `_handle_blast_hit` (lines 76-96) with the NCBIXML record stream
already parsed: the hits appended to `results` (one call of
`_append_results_to` per returned hit, in order). -/
def handle_blast_hit (pidT plT : ℚ) (reportAll : Bool)
    (recs : List (List Hit)) : List Hit :=
  recs.flatMap (recordEmit pidT plT reportAll)

/-- The file system and parsed BLAST XML contents seen by
`parse_results`: which paths exist, and the hit lists of the records of
each BLAST output file (per record, hits in alignment/hsp order). -/
structure BlastFS where
  pathExists : String → Bool
  records : String → List (List Hit)

/-- The inner database loop of `parse_results` (lines 53-57): for each
`(database_name, blast_out)` pair, raise when the BLAST output file
does not exist, otherwise collect the rows `_handle_blast_hit` appends
(tagged with the database name). -/
def processDatabases (fs : BlastFS) (pidT plT : ℚ) (reportAll : Bool) :
    List (String × String) → Except Unit (List (String × Hit))
  | [] => Except.ok []
  | (dbName, blastOut) :: rest =>
    if fs.pathExists blastOut then
      match processDatabases fs pidT plT reportAll rest with
      | Except.error e => Except.error e
      | Except.ok tail =>
        Except.ok
          (((handle_blast_hit pidT plT reportAll (fs.records blastOut)).map
            (fun h => (dbName, h))) ++ tail)
    else Except.error ()

/-- The outer file loop of `parse_results` (lines 49-65).  The first
component records the FASTA artifacts actually written before the parse
finished or aborted (pairs of output file name and the sequence records,
written only when `hit_seq_records` is non-empty); the second is the
final outcome: the accumulated result rows, or the raised exception. -/
def parse_results (fs : BlastFS) (outName : String → String)
    (pidT plT : ℚ) (reportAll : Bool) :
    List (String × List (String × String)) →
      List (String × List Hit) × Except Unit (List (String × Hit))
  | [] => ([], Except.ok [])
  | (file, dbs) :: restFiles =>
    match processDatabases fs pidT plT reportAll dbs with
    | Except.error e => ([], Except.error e)
    | Except.ok rows =>
      let seqRecs := rows.map (fun r => r.2)
      let rest := parse_results fs outName pidT plT reportAll restFiles
      ((if seqRecs.isEmpty then rest.1 else (outName file, seqRecs) :: rest.1),
        rest.2.map (fun tailRows => rows ++ tailRows))

/-- `_handle_blast_hit` with the state of the file handle made
explicit.  The source (lines 76-96) opens `blast_file`, iterates the
NCBIXML record stream, and calls `blast_handle.close()` only after the
loop completes; there is no try/finally or with-statement, so an
exception raised while producing a record propagates past the `close()`
call.  Each record of the stream either yields its hits or raises.
The boolean result records whether `close()` was executed on exit. -/
def handleRecordsLoop (pidT plT : ℚ) (reportAll : Bool) :
    List (Except Unit (List Hit)) → Except Unit (List Hit)
  | [] => Except.ok []
  | r :: rest =>
    match r with
    | Except.error e => Except.error e
    | Except.ok recHits =>
      match handleRecordsLoop pidT plT reportAll rest with
      | Except.error e => Except.error e
      | Except.ok tail => Except.ok (recordEmit pidT plT reportAll recHits ++ tail)

/-- See `handleRecordsLoop`: the pair of the parse outcome and whether
the handle was closed when control left `_handle_blast_hit`. -/
def handle_blast_hit_with_handle (pidT plT : ℚ) (reportAll : Bool)
    (recs : List (Except Unit (List Hit))) : Except Unit (List Hit) × Bool :=
  match handleRecordsLoop pidT plT reportAll recs with
  | Except.error e => (Except.error e, false)
  | Except.ok hits => (Except.ok hits, true)

/-! ### Demonstration hits used by the concrete conjuncts and witnesses -/

/-- Spec section 8 end-to-end scenario, hit on query range 10..100. -/
def demoA : Hit := ⟨"contig1", 10, 100, 90, 99, 100⟩

/-- Spec section 8 end-to-end scenario, hit on query range 50..150. -/
def demoB : Hit := ⟨"contig1", 50, 150, 100, 99, 100⟩

/-- Spec section 8 selection-ordering hit keyed (100, 99.0, 100.0). -/
def exHitA : Hit := ⟨"contig1", 1, 100, 100, 99, 100⟩

/-- Spec section 8 selection-ordering hit keyed (100, 95.0, 100.0). -/
def exHitB : Hit := ⟨"contig1", 1, 100, 100, 95, 100⟩

/-- Spec section 8 selection-ordering hit keyed (90, 99.0, 100.0). -/
def exHitC : Hit := ⟨"contig1", 1, 100, 90, 99, 100⟩

/-- A threshold-passing hit that wins its overlap cluster. -/
def cxA : Hit := ⟨"c", 1, 100, 100, 99, 100⟩

/-- A threshold-passing hit that loses its overlap cluster to `cxA`. -/
def cxB : Hit := ⟨"c", 50, 150, 100, 98, 100⟩

/-- Two hits with identical sort keys (50, 97, 80) at different places. -/
def tieA : Hit := ⟨"t", 1, 10, 50, 97, 80⟩

/-- Second hit of the full-key tie with `tieA`. -/
def tieB : Hit := ⟨"t", 5, 20, 50, 97, 80⟩

/-- The rows the database loop of `parse_results` collects for one
input file when every BLAST output file of the file exists: per
database, the hits `_handle_blast_hit` appends, tagged with the
database name. -/
def databaseRows (fs : BlastFS) (pidT plT : ℚ) (ra : Bool)
    (dbs : List (String × String)) : List (String × Hit) :=
  dbs.flatMap (fun d =>
    (handle_blast_hit pidT plT ra (fs.records d.2)).map (fun h => (d.1, h)))

/-- The FASTA artifacts a fully successful `parse_results` run writes:
one artifact per input file whose collected `hit_seq_records` list is
non-empty, named by `_get_out_file_name`. -/
def fileArtifacts (fs : BlastFS) (outName : String → String)
    (pidT plT : ℚ) (ra : Bool)
    (m : List (String × List (String × String))) : List (String × List Hit) :=
  m.filterMap (fun fd =>
    if (databaseRows fs pidT plT ra fd.2).isEmpty then none
    else some (outName fd.1, (databaseRows fs pidT plT ra fd.2).map (fun r => r.2)))

/-! ### Lemmas about the sort key -/

lemma keyLt_iff (a b : Hit) :
    keyLt a b = true ↔
      (a.alnLength < b.alnLength ∨
        (a.alnLength = b.alnLength ∧
          (a.pid < b.pid ∨ (a.pid = b.pid ∧ a.plength < b.plength)))) := by
  simp [keyLt]

lemma keyLt_irrefl (a : Hit) : keyLt a a = false := by
  simp [keyLt]

lemma keyLt_asymm (a b : Hit) (h : keyLt a b = true) : keyLt b a = false := by
  rw [keyLt_iff] at h
  rw [Bool.eq_false_iff, Ne, keyLt_iff]
  rintro h'
  rcases h with h | ⟨he, h⟩ <;> rcases h' with h' | ⟨he', h'⟩
  · omega
  · omega
  · omega
  · rcases h with h | ⟨hp, h⟩ <;> rcases h' with h' | ⟨hp', h'⟩ <;> linarith

lemma keyLt_notlt_trans (a b c : Hit) (hab : keyLt a b = false)
    (hbc : keyLt b c = false) : keyLt a c = false := by
  rw [Bool.eq_false_iff, Ne, keyLt_iff] at hab hbc ⊢
  push_neg at hab hbc ⊢
  refine ⟨by omega, fun hac => ?_⟩
  have hb1 : a.alnLength = b.alnLength := by omega
  have hb2 : b.alnLength = c.alnLength := by omega
  obtain ⟨hp1, hq1⟩ := hab.2 hb1
  obtain ⟨hp2, hq2⟩ := hbc.2 hb2
  refine ⟨by linarith, fun hpe => ?_⟩
  have hpb : a.pid = b.pid := by linarith
  have hpc : b.pid = c.pid := by linarith
  have := hq1 hpb
  have := hq2 hpc
  linarith

/-! ### Lemmas about the stable descending sort -/

lemma mem_insertHitDesc (h x : Hit) (s : List Hit) :
    x ∈ insertHitDesc h s ↔ x = h ∨ x ∈ s := by
  induction s with
  | nil => simp [insertHitDesc]
  | cons y ys ih =>
    by_cases hk : keyLt h y = true
    · simp only [insertHitDesc, if_pos hk, List.mem_cons, ih]
      tauto
    · simp only [insertHitDesc, if_neg hk, List.mem_cons]

lemma insertHitDesc_perm (h : Hit) (s : List Hit) :
    (insertHitDesc h s).Perm (h :: s) := by
  induction s with
  | nil => exact List.Perm.refl _
  | cons y ys ih =>
    by_cases hk : keyLt h y = true
    · simp only [insertHitDesc, if_pos hk]
      exact (ih.cons y).trans (List.Perm.swap h y ys)
    · simp only [insertHitDesc, if_neg hk]
      exact List.Perm.refl _

lemma sortHitsDesc_perm (l : List Hit) : (sortHitsDesc l).Perm l := by
  induction l with
  | nil => exact List.Perm.refl _
  | cons h t ih =>
    exact (insertHitDesc_perm h (sortHitsDesc t)).trans (ih.cons h)

lemma insertHitDesc_sorted (h : Hit) (s : List Hit)
    (hs : s.Pairwise (fun a b => keyLt a b = false)) :
    (insertHitDesc h s).Pairwise (fun a b => keyLt a b = false) := by
  induction s with
  | nil => simp [insertHitDesc]
  | cons y ys ih =>
    rw [List.pairwise_cons] at hs
    by_cases hk : keyLt h y = true
    · simp only [insertHitDesc, if_pos hk]
      rw [List.pairwise_cons]
      refine ⟨fun z hz => ?_, ih hs.2⟩
      rcases (mem_insertHitDesc h z ys).mp hz with rfl | hz'
      · exact keyLt_asymm _ _ hk
      · exact hs.1 z hz'
    · simp only [insertHitDesc, if_neg hk]
      have hk' : keyLt h y = false := Bool.eq_false_iff.mpr hk
      rw [List.pairwise_cons]
      refine ⟨fun z hz => ?_, List.pairwise_cons.mpr hs⟩
      rcases List.mem_cons.mp hz with rfl | hz'
      · exact hk'
      · exact keyLt_notlt_trans h y z hk' (hs.1 z hz')

lemma sortHitsDesc_sorted (l : List Hit) :
    (sortHitsDesc l).Pairwise (fun a b => keyLt a b = false) := by
  induction l with
  | nil => exact List.Pairwise.nil
  | cons h t ih => exact insertHitDesc_sorted h (sortHitsDesc t) ih

lemma sortHitsDesc_head (l : List Hit) :
    (sortHitsDesc l).head? = firstMaxHit l := by
  induction l with
  | nil => rfl
  | cons h t ih =>
    show (insertHitDesc h (sortHitsDesc t)).head? = _
    cases hs : sortHitsDesc t with
    | nil =>
      have ht : firstMaxHit t = none := by rw [← ih, hs]; rfl
      simp [insertHitDesc, firstMaxHit, ht]
    | cons y ys =>
      have ht : firstMaxHit t = some y := by rw [← ih, hs]; rfl
      simp only [firstMaxHit, ht]
      by_cases hk : keyLt h y = true
      · simp [insertHitDesc, if_pos hk, hk]
      · simp [insertHitDesc, if_neg hk, hk]

lemma firstMaxHit_ne_none (a : Hit) (s : List Hit) : firstMaxHit (a :: s) ≠ none := by
  intro h
  have hh := sortHitsDesc_head (a :: s)
  rw [h, List.head?_eq_none_iff] at hh
  have hp := sortHitsDesc_perm (a :: s)
  rw [hh] at hp
  exact absurd hp.nil_eq (by simp)

lemma firstMaxHit_spec (l : List Hit) (m : Hit) (hm : firstMaxHit l = some m) :
    ∃ pre post, l = pre ++ m :: post ∧ (∀ x ∈ pre, keyLt x m = true) ∧
      (∀ x ∈ l, keyLt m x = false) := by
  induction l generalizing m with
  | nil => simp [firstMaxHit] at hm
  | cons h t ih =>
    cases ht : firstMaxHit t with
    | none =>
      have htn : t = [] := by
        cases t with
        | nil => rfl
        | cons a s => exact absurd ht (firstMaxHit_ne_none a s)
      subst htn
      simp only [firstMaxHit, ht] at hm
      obtain rfl : h = m := Option.some.inj hm
      refine ⟨[], [], rfl, by simp, fun x hx => ?_⟩
      rcases List.mem_singleton.mp hx with rfl
      exact keyLt_irrefl _
    | some m' =>
      simp only [firstMaxHit, ht] at hm
      by_cases hk : keyLt h m' = true
      · rw [if_pos hk] at hm
        obtain rfl : m' = m := Option.some.inj hm
        obtain ⟨pre, post, heq, hpre, hmax⟩ := ih m' ht
        refine ⟨h :: pre, post, by rw [heq]; rfl, fun x hx => ?_, fun x hx => ?_⟩
        · rcases List.mem_cons.mp hx with rfl | hx'
          · exact hk
          · exact hpre x hx'
        · rcases List.mem_cons.mp hx with rfl | hx'
          · exact keyLt_asymm _ _ hk
          · exact hmax x hx'
      · rw [if_neg hk] at hm
        obtain rfl : h = m := Option.some.inj hm
        have hk' : keyLt h m' = false := Bool.eq_false_iff.mpr hk
        obtain ⟨pre, post, heq, hpre, hmax⟩ := ih m' ht
        refine ⟨[], t, rfl, by simp, fun x hx => ?_⟩
        rcases List.mem_cons.mp hx with rfl | hx'
        · exact keyLt_irrefl _
        · exact keyLt_notlt_trans _ m' _ hk' (hmax x hx')

lemma selectHits_true_eq (c : List Hit) : selectHits true c = sortHitsDesc c := by
  unfold selectHits
  cases hs : sortHitsDesc c with
  | nil => simp
  | cons y ys => simp

lemma selectHits_false_eq (c : List Hit) (hne : c ≠ []) :
    ∃ best, selectHits false c = [best] ∧ firstMaxHit c = some best := by
  unfold selectHits
  cases hs : sortHitsDesc c with
  | nil =>
    have hp := sortHitsDesc_perm c
    rw [hs] at hp
    exact absurd hp.nil_eq.symm hne
  | cons y ys =>
    refine ⟨y, by simp, ?_⟩
    rw [← sortHitsDesc_head, hs]
    rfl

/-! ### Folded minima and maxima of bounding intervals -/

lemma foldr_min_le_init (a : Int) (l : List Int) : l.foldr min a ≤ a := by
  induction l with
  | nil => exact le_refl a
  | cons x xs ih => exact (min_le_right x (xs.foldr min a)).trans ih

lemma foldr_min_le_mem (a : Int) (l : List Int) (x : Int) (hx : x ∈ l) :
    l.foldr min a ≤ x := by
  induction l with
  | nil => cases hx
  | cons y ys ih =>
    rcases List.mem_cons.mp hx with rfl | hx'
    · exact min_le_left _ _
    · exact (min_le_right _ _).trans (ih hx')

lemma foldr_min_choice (a : Int) (l : List Int) :
    l.foldr min a = a ∨ l.foldr min a ∈ l := by
  induction l with
  | nil => exact Or.inl rfl
  | cons y ys ih =>
    rcases min_choice y (ys.foldr min a) with hm | hm
    · exact Or.inr (by rw [List.foldr_cons, hm]; exact List.mem_cons_self y ys)
    · rcases ih with ha | hmem
      · exact Or.inl (by rw [List.foldr_cons, hm, ha])
      · exact Or.inr (by rw [List.foldr_cons, hm]; exact List.mem_cons_of_mem y hmem)

lemma init_le_foldr_max (a : Int) (l : List Int) : a ≤ l.foldr max a := by
  induction l with
  | nil => exact le_refl a
  | cons x xs ih => exact ih.trans (le_max_right x (xs.foldr max a))

lemma mem_le_foldr_max (a : Int) (l : List Int) (x : Int) (hx : x ∈ l) :
    x ≤ l.foldr max a := by
  induction l with
  | nil => cases hx
  | cons y ys ih =>
    rcases List.mem_cons.mp hx with rfl | hx'
    · exact le_max_left _ _
    · exact (ih hx').trans (le_max_right _ _)

lemma foldr_max_choice (a : Int) (l : List Int) :
    l.foldr max a = a ∨ l.foldr max a ∈ l := by
  induction l with
  | nil => exact Or.inl rfl
  | cons y ys ih =>
    rcases max_choice y (ys.foldr max a) with hm | hm
    · exact Or.inr (by rw [List.foldr_cons, hm]; exact List.mem_cons_self y ys)
    · rcases ih with ha | hmem
      · exact Or.inl (by rw [List.foldr_cons, hm, ha])
      · exact Or.inr (by rw [List.foldr_cons, hm]; exact List.mem_cons_of_mem y hmem)

/-! ### Invariants of the interval partitioner -/

/-- The bounding intervals of two clusters overlap (on the same contig). -/
def PBoundsOverlap (p q : BlastHitPartition) : Prop :=
  p.contig = q.contig ∧ p.pstart ≤ q.pend ∧ q.pstart ≤ p.pend

lemma pBoundsOverlap_symm (p q : BlastHitPartition) (h : PBoundsOverlap p q) :
    PBoundsOverlap q p :=
  ⟨h.1.symm, h.2.2, h.2.1⟩

lemma overlaps_symm (a b : Hit) (h : Overlaps a b) : Overlaps b a :=
  ⟨h.1.symm, h.2.2, h.2.1⟩

lemma linked_mono (l l' : List Hit) (hsub : ∀ x, x ∈ l → x ∈ l') (a b : Hit)
    (h : Linked l a b) : Linked l' a b :=
  Relation.ReflTransGen.mono (fun x y hr => ⟨hsub x hr.1, hsub y hr.2.1, hr.2.2⟩) h

lemma linked_symm (l : List Hit) (a b : Hit) (h : Linked l a b) : Linked l b a :=
  Relation.ReflTransGen.symmetric
    (fun x y hr => ⟨hr.2.1, hr.1, overlaps_symm x y hr.2.2⟩) h

lemma overlapsPartition_iff (h : Hit) (p : BlastHitPartition) :
    overlapsPartition h p = true ↔
      (h.contig = p.contig ∧ h.qstart ≤ p.pend ∧ p.pstart ≤ h.qend) := by
  simp [overlapsPartition, and_assoc]

lemma mem_mergeInto_hits (h x : Hit) (ov : List BlastHitPartition) :
    x ∈ (mergeInto h ov).hits ↔ x = h ∨ ∃ o ∈ ov, x ∈ o.hits := by
  simp [mergeInto, List.mem_flatten]

/-- The invariant the partitioner state keeps after having consumed the
hit stream `seen`: clusters hold exactly the hits seen so far, all on
the cluster's contig and inside the cluster's valid bounding interval;
every integer point of a bounding interval is covered by a member hit;
distinct clusters have non-overlapping bounding intervals; and members
of one cluster are linked by overlap chains through `seen`. -/
structure PartsInv (seen : List Hit) (ps : List BlastHitPartition) : Prop where
  hits_mem : ∀ p ∈ ps, ∀ x ∈ p.hits, x ∈ seen
  covers : ∀ x ∈ seen, ∃ p ∈ ps, x ∈ p.hits
  hits_ne : ∀ p ∈ ps, p.hits ≠ []
  contig_eq : ∀ p ∈ ps, ∀ x ∈ p.hits, x.contig = p.contig
  bounds : ∀ p ∈ ps, ∀ x ∈ p.hits, p.pstart ≤ x.qstart ∧ x.qend ≤ p.pend
  bvalid : ∀ p ∈ ps, p.pstart ≤ p.pend
  touch : ∀ p ∈ ps, ∀ t : Int, p.pstart ≤ t → t ≤ p.pend →
    ∃ x ∈ p.hits, x.qstart ≤ t ∧ t ≤ x.qend
  disj : ps.Pairwise (fun p q => ¬ PBoundsOverlap p q)
  conn : ∀ p ∈ ps, ∀ a ∈ p.hits, ∀ b ∈ p.hits, Linked seen a b

lemma mergeInto_cover (h : Hit) (ov : List BlastHitPartition)
    (hov : ∀ o ∈ ov, h.qstart ≤ o.pend ∧ o.pstart ≤ h.qend)
    (t : Int) (h1 : (mergeInto h ov).pstart ≤ t) (h2 : t ≤ (mergeInto h ov).pend) :
    (h.qstart ≤ t ∧ t ≤ h.qend) ∨ ∃ o ∈ ov, o.pstart ≤ t ∧ t ≤ o.pend := by
  by_cases c1 : t < h.qstart
  · right
    rcases foldr_min_choice h.qstart (ov.map (fun p => p.pstart)) with he | hmem
    · exact absurd (he ▸ h1) (not_le.mpr c1)
    · obtain ⟨o, ho, hoe⟩ := List.mem_map.mp hmem
      refine ⟨o, ho, ?_, ?_⟩
      · rw [hoe]; exact h1
      · exact le_of_lt (lt_of_lt_of_le c1 (hov o ho).1)
  · by_cases c2 : h.qend < t
    · right
      rcases foldr_max_choice h.qend (ov.map (fun p => p.pend)) with he | hmem
      · exact absurd (he ▸ h2) (not_le.mpr c2)
      · obtain ⟨o, ho, hoe⟩ := List.mem_map.mp hmem
        refine ⟨o, ho, ?_, ?_⟩
        · exact le_of_lt (lt_of_le_of_lt (hov o ho).2 c2)
        · rw [hoe]; exact h2
    · exact Or.inl ⟨not_lt.mp c1, not_lt.mp c2⟩

lemma partsInv_append (seen : List Hit) (ps : List BlastHitPartition) (h : Hit)
    (inv : PartsInv seen ps) (hval : h.qstart ≤ h.qend) :
    PartsInv (seen ++ [h]) (appendHit ps h) := by
  have hmemov : ∀ o, o ∈ ps.filter (fun p => overlapsPartition h p) →
      o ∈ ps ∧ (h.contig = o.contig ∧ h.qstart ≤ o.pend ∧ o.pstart ≤ h.qend) := by
    intro o ho
    have hm := List.mem_filter.mp ho
    exact ⟨hm.1, (overlapsPartition_iff h o).mp hm.2⟩
  have hmemrest : ∀ r, r ∈ ps.filter (fun p => ! overlapsPartition h p) →
      r ∈ ps ∧ overlapsPartition h r = false := by
    intro r hr
    have hm := List.mem_filter.mp hr
    exact ⟨hm.1, by simpa using hm.2⟩
  have hsplit : ∀ p, p ∈ ps →
      p ∈ ps.filter (fun q => overlapsPartition h q) ∨
        p ∈ ps.filter (fun q => ! overlapsPartition h q) := by
    intro p hp
    cases hb : overlapsPartition h p
    · exact Or.inr (List.mem_filter.mpr ⟨hp, by simp [hb]⟩)
    · exact Or.inl (List.mem_filter.mpr ⟨hp, hb⟩)
  have Mv1 : (mergeInto h (ps.filter (fun p => overlapsPartition h p))).pstart ≤
      h.qstart := foldr_min_le_init _ _
  have Mv2 : h.qend ≤ (mergeInto h (ps.filter (fun p => overlapsPartition h p))).pend :=
    init_le_foldr_max _ _
  have MboundsO : ∀ o ∈ ps.filter (fun p => overlapsPartition h p),
      (mergeInto h (ps.filter (fun p => overlapsPartition h p))).pstart ≤ o.pstart ∧
        o.pend ≤ (mergeInto h (ps.filter (fun p => overlapsPartition h p))).pend := by
    intro o ho
    exact ⟨foldr_min_le_mem _ _ _ (List.mem_map_of_mem _ ho),
      mem_le_foldr_max _ _ _ (List.mem_map_of_mem _ ho)⟩
  have Mtouch : ∀ t : Int,
      (mergeInto h (ps.filter (fun p => overlapsPartition h p))).pstart ≤ t →
      t ≤ (mergeInto h (ps.filter (fun p => overlapsPartition h p))).pend →
      ∃ x ∈ (mergeInto h (ps.filter (fun p => overlapsPartition h p))).hits,
        x.qstart ≤ t ∧ t ≤ x.qend := by
    intro t ht1 ht2
    rcases mergeInto_cover h _
        (fun o ho => ⟨(hmemov o ho).2.2.1, (hmemov o ho).2.2.2⟩) t ht1 ht2 with
      ⟨ha, hb⟩ | ⟨o, ho, ha, hb⟩
    · exact ⟨h, (mem_mergeInto_hits h h _).mpr (Or.inl rfl), ha, hb⟩
    · obtain ⟨x, hx, hx1, hx2⟩ := inv.touch o (hmemov o ho).1 t ha hb
      exact ⟨x, (mem_mergeInto_hits h x _).mpr (Or.inr ⟨o, ho, hx⟩), hx1, hx2⟩
  have MdisjRest : ∀ r ∈ ps.filter (fun p => ! overlapsPartition h p),
      ¬ PBoundsOverlap (mergeInto h (ps.filter (fun p => overlapsPartition h p))) r := by
    rintro r hr ⟨hc, hb1, hb2⟩
    have hc' : h.contig = r.contig := hc
    have hrv : r.pstart ≤ r.pend := inv.bvalid r (hmemrest r hr).1
    have hMv : (mergeInto h (ps.filter (fun p => overlapsPartition h p))).pstart ≤
        (mergeInto h (ps.filter (fun p => overlapsPartition h p))).pend :=
      Mv1.trans (hval.trans Mv2)
    obtain ⟨x, hx, hx1, hx2⟩ :=
      Mtouch (max (mergeInto h (ps.filter (fun p => overlapsPartition h p))).pstart
        r.pstart) (le_max_left _ _) (max_le hMv hb2)
    have hrt1 : r.pstart ≤ max
        (mergeInto h (ps.filter (fun p => overlapsPartition h p))).pstart r.pstart :=
      le_max_right _ _
    have hrt2 : max (mergeInto h (ps.filter (fun p => overlapsPartition h p))).pstart
        r.pstart ≤ r.pend := max_le hb1 hrv
    rcases (mem_mergeInto_hits h x _).mp hx with rfl | ⟨o, ho, hxo⟩
    · have hor : overlapsPartition x r = true :=
        (overlapsPartition_iff x r).mpr ⟨hc', hx1.trans hrt2, hrt1.trans hx2⟩
      rw [(hmemrest r hr).2] at hor
      exact Bool.false_ne_true hor
    · have ho' := hmemov o ho
      have hxb := inv.bounds o ho'.1 x hxo
      have hPBO : PBoundsOverlap o r :=
        ⟨ho'.2.1.symm.trans hc', (hxb.1.trans hx1).trans hrt2,
          hrt1.trans (hx2.trans hxb.2)⟩
      have hne : o ≠ r := by
        intro he
        have h1 := (List.mem_filter.mp ho).2
        rw [he, (hmemrest r hr).2] at h1
        exact Bool.false_ne_true h1
      have hsymm : Symmetric (fun p q : BlastHitPartition => ¬ PBoundsOverlap p q) := by
        intro p q hn hqp
        exact hn (pBoundsOverlap_symm q p hqp)
      exact List.Pairwise.forall hsymm inv.disj ho'.1 (hmemrest r hr).1 hne hPBO
  have MconnH : ∀ a ∈ (mergeInto h (ps.filter (fun p => overlapsPartition h p))).hits,
      Linked (seen ++ [h]) a h := by
    intro a ha
    rcases (mem_mergeInto_hits h a _).mp ha with rfl | ⟨o, ho, hao⟩
    · exact Relation.ReflTransGen.refl
    · have ho' := hmemov o ho
      obtain ⟨m, hm, hm1, hm2⟩ := inv.touch o ho'.1 (max h.qstart o.pstart)
        (le_max_right _ _) (max_le ho'.2.2.1 (inv.bvalid o ho'.1))
      have hstep : m ∈ seen ++ [h] ∧ h ∈ seen ++ [h] ∧ Overlaps m h := by
        refine ⟨List.mem_append.mpr (Or.inl (inv.hits_mem o ho'.1 m hm)),
          List.mem_append.mpr (Or.inr (List.mem_singleton_self h)), ?_, ?_, ?_⟩
        · exact (inv.contig_eq o ho'.1 m hm).trans ho'.2.1.symm
        · exact hm1.trans (max_le hval ho'.2.2.2)
        · exact (le_max_left h.qstart o.pstart).trans hm2
      have hlink : Linked (seen ++ [h]) a m :=
        linked_mono seen _ (fun x hx => List.mem_append.mpr (Or.inl hx)) a m
          (inv.conn o ho'.1 a hao m hm)
      exact hlink.tail hstep
  refine ⟨?_, ?_, ?_, ?_, ?_, ?_, ?_, ?_, ?_⟩
  · intro q hq x hx
    rcases List.mem_cons.mp hq with rfl | hq'
    · rcases (mem_mergeInto_hits h x _).mp hx with rfl | ⟨o, ho, hxo⟩
      · exact List.mem_append.mpr (Or.inr (List.mem_singleton_self x))
      · exact List.mem_append.mpr (Or.inl (inv.hits_mem o (hmemov o ho).1 x hxo))
    · exact List.mem_append.mpr (Or.inl (inv.hits_mem q (hmemrest q hq').1 x hx))
  · intro x hx
    rcases List.mem_append.mp hx with hx' | hx'
    · obtain ⟨p, hp, hxp⟩ := inv.covers x hx'
      rcases hsplit p hp with hpo | hpr
      · exact ⟨_, List.mem_cons_self _ _,
          (mem_mergeInto_hits h x _).mpr (Or.inr ⟨p, hpo, hxp⟩)⟩
      · exact ⟨p, List.mem_cons_of_mem _ hpr, hxp⟩
    · rcases List.mem_singleton.mp hx' with rfl
      exact ⟨_, List.mem_cons_self _ _, (mem_mergeInto_hits x x _).mpr (Or.inl rfl)⟩
  · intro q hq
    rcases List.mem_cons.mp hq with rfl | hq'
    · exact List.cons_ne_nil _ _
    · exact inv.hits_ne q (hmemrest q hq').1
  · intro q hq x hx
    rcases List.mem_cons.mp hq with rfl | hq'
    · rcases (mem_mergeInto_hits h x _).mp hx with rfl | ⟨o, ho, hxo⟩
      · rfl
      · exact (inv.contig_eq o (hmemov o ho).1 x hxo).trans (hmemov o ho).2.1.symm
    · exact inv.contig_eq q (hmemrest q hq').1 x hx
  · intro q hq x hx
    rcases List.mem_cons.mp hq with rfl | hq'
    · rcases (mem_mergeInto_hits h x _).mp hx with rfl | ⟨o, ho, hxo⟩
      · exact ⟨Mv1, Mv2⟩
      · exact ⟨(MboundsO o ho).1.trans (inv.bounds o (hmemov o ho).1 x hxo).1,
          (inv.bounds o (hmemov o ho).1 x hxo).2.trans (MboundsO o ho).2⟩
    · exact inv.bounds q (hmemrest q hq').1 x hx
  · intro q hq
    rcases List.mem_cons.mp hq with rfl | hq'
    · exact Mv1.trans (hval.trans Mv2)
    · exact inv.bvalid q (hmemrest q hq').1
  · intro q hq t ht1 ht2
    rcases List.mem_cons.mp hq with rfl | hq'
    · exact Mtouch t ht1 ht2
    · exact inv.touch q (hmemrest q hq').1 t ht1 ht2
  · exact List.pairwise_cons.mpr
      ⟨MdisjRest, List.Pairwise.sublist (List.filter_sublist ps) inv.disj⟩
  · intro q hq a ha b hb
    rcases List.mem_cons.mp hq with rfl | hq'
    · exact (MconnH a ha).trans (linked_symm _ _ _ (MconnH b hb))
    · exact linked_mono seen _ (fun x hx => List.mem_append.mpr (Or.inl hx)) a b
        (inv.conn q (hmemrest q hq').1 a ha b hb)

lemma partsInv_nil : PartsInv [] [] :=
  ⟨by simp, by simp, by simp, by simp, by simp, by simp, by simp,
    List.Pairwise.nil, by simp⟩

lemma partsInv_foldl (l : List Hit) : ∀ (seen : List Hit) (ps : List BlastHitPartition),
    PartsInv seen ps → ValidHits l → PartsInv (seen ++ l) (l.foldl appendHit ps) := by
  induction l with
  | nil =>
    intro seen ps inv _
    simpa using inv
  | cons h t ih =>
    intro seen ps inv hv
    have h1 := partsInv_append seen ps h inv (hv h (List.mem_cons_self h t))
    have h2 := ih (seen ++ [h]) (appendHit ps h) h1
      (fun x hx => hv x (List.mem_cons_of_mem h hx))
    simpa [List.append_assoc] using h2

lemma partsInv_build (l : List Hit) (hv : ValidHits l) :
    PartsInv l (buildPartitions l) := by
  have hp := partsInv_foldl l [] [] partsInv_nil hv
  simpa using hp

lemma inSameCluster_iff_linked (l : List Hit) (hv : ValidHits l) (a b : Hit)
    (ha : a ∈ l) (hb : b ∈ l) : InSameCluster l a b ↔ Linked l a b := by
  have inv := partsInv_build l hv
  constructor
  · rintro ⟨p, hp, hap, hbp⟩
    exact inv.conn p hp a hap b hbp
  · intro hl
    clear hb
    unfold Linked at hl
    induction hl with
    | refl =>
      obtain ⟨p, hp, hap⟩ := inv.covers a ha
      exact ⟨p, hp, hap, hap⟩
    | tail hac hrel ih =>
      obtain ⟨hcmem, hbmem, hov⟩ := hrel
      obtain ⟨p, hp, hap, hcp⟩ := ih
      obtain ⟨q, hq, hbq⟩ := inv.covers _ hbmem
      have hbp := inv.bounds p hp _ hcp
      have hbq2 := inv.bounds q hq _ hbq
      have hxv := hv _ hcmem
      have hyv := hv _ hbmem
      have hPBO : PBoundsOverlap p q := by
        refine ⟨?_, ?_, ?_⟩
        · rw [← inv.contig_eq p hp _ hcp, ← inv.contig_eq q hq _ hbq]
          exact hov.1
        · exact hbp.1.trans ((le_max_left _ _).trans
            ((max_le hov.2.1 hyv).trans hbq2.2))
        · exact hbq2.1.trans ((le_max_right _ _).trans
            ((max_le hxv hov.2.2).trans hbp.2))
      have hpq : p = q := by
        by_contra hne
        have hsymm : Symmetric (fun u v : BlastHitPartition => ¬ PBoundsOverlap u v) := by
          intro u v hn hvu
          exact hn (pBoundsOverlap_symm v u hvu)
        exact List.Pairwise.forall hsymm inv.disj hp hq hne hPBO
      exact ⟨p, hp, hap, hpq ▸ hbq⟩

lemma appendHit_mem (ps : List BlastHitPartition) (h x : Hit) :
    (∃ p ∈ appendHit ps h, x ∈ p.hits) ↔ (x = h ∨ ∃ p ∈ ps, x ∈ p.hits) := by
  unfold appendHit
  constructor
  · rintro ⟨p, hp, hxp⟩
    rcases List.mem_cons.mp hp with rfl | hp'
    · rcases (mem_mergeInto_hits h x _).mp hxp with rfl | ⟨o, ho, hxo⟩
      · exact Or.inl rfl
      · exact Or.inr ⟨o, (List.mem_filter.mp ho).1, hxo⟩
    · exact Or.inr ⟨p, (List.mem_filter.mp hp').1, hxp⟩
  · rintro (rfl | ⟨p, hp, hxp⟩)
    · exact ⟨_, List.mem_cons_self _ _, (mem_mergeInto_hits x x _).mpr (Or.inl rfl)⟩
    · cases hb : overlapsPartition h p
      · exact ⟨p, List.mem_cons_of_mem _ (List.mem_filter.mpr ⟨hp, by simp [hb]⟩), hxp⟩
      · exact ⟨_, List.mem_cons_self _ _, (mem_mergeInto_hits h x _).mpr
          (Or.inr ⟨p, List.mem_filter.mpr ⟨hp, hb⟩, hxp⟩)⟩

lemma foldl_appendHit_mem (l : List Hit) (x : Hit) : ∀ ps : List BlastHitPartition,
    (∃ p ∈ l.foldl appendHit ps, x ∈ p.hits) ↔
      (x ∈ l ∨ ∃ p ∈ ps, x ∈ p.hits) := by
  induction l with
  | nil =>
    intro ps
    simp
  | cons h t ih =>
    intro ps
    rw [List.foldl_cons, ih (appendHit ps h), appendHit_mem]
    simp only [List.mem_cons]
    tauto

lemma buildPartitions_mem (l : List Hit) (x : Hit) :
    (∃ p ∈ buildPartitions l, x ∈ p.hits) ↔ x ∈ l := by
  have hm := foldl_appendHit_mem l x []
  simpa using hm

lemma passesB_iff (pidT plT : ℚ) (h : Hit) :
    passesB pidT plT h = true ↔ (pidT < h.pid ∧ plT < h.plength) := by
  simp [passesB]

lemma selectHits_subset (ra : Bool) (c : List Hit) (x : Hit)
    (hx : x ∈ selectHits ra c) : x ∈ c := by
  unfold selectHits at hx
  by_cases h1 : 1 ≤ (sortHitsDesc c).length
  · rw [if_pos h1] at hx
    cases ra
    · exact (sortHitsDesc_perm c).mem_iff.mp (List.take_subset 1 _ hx)
    · exact (sortHitsDesc_perm c).mem_iff.mp hx
  · rw [if_neg h1] at hx
    cases hx

lemma handle_single (pidT plT : ℚ) (ra : Bool) (l : List Hit) :
    handle_blast_hit pidT plT ra [l] = recordEmit pidT plT ra l := by
  simp [handle_blast_hit]

lemma mem_recordEmit_passes (pidT plT : ℚ) (ra : Bool) (l : List Hit) (x : Hit)
    (hx : x ∈ recordEmit pidT plT ra l) : x ∈ l.filter (passesB pidT plT) := by
  unfold recordEmit getHitsNonoverlappingRegions at hx
  obtain ⟨cl, hcl, hxc⟩ := List.mem_flatMap.mp hx
  obtain ⟨p, hp, rfl⟩ := List.mem_map.mp hcl
  exact (buildPartitions_mem _ x).mp ⟨p, hp, selectHits_subset ra p.hits x hxc⟩

lemma mem_recordEmit_true_iff (pidT plT : ℚ) (l : List Hit) (x : Hit) :
    x ∈ recordEmit pidT plT true l ↔
      ∃ p ∈ buildPartitions (l.filter (passesB pidT plT)), x ∈ p.hits := by
  unfold recordEmit getHitsNonoverlappingRegions
  rw [List.mem_flatMap]
  constructor
  · rintro ⟨cl, hcl, hxc⟩
    obtain ⟨p, hp, rfl⟩ := List.mem_map.mp hcl
    rw [selectHits_true_eq] at hxc
    exact ⟨p, hp, (sortHitsDesc_perm p.hits).mem_iff.mp hxc⟩
  · rintro ⟨p, hp, hxp⟩
    refine ⟨p.hits, List.mem_map_of_mem _ hp, ?_⟩
    rw [selectHits_true_eq]
    exact (sortHitsDesc_perm p.hits).mem_iff.mpr hxp

/-! ### Claim theorems -/

/-- C1: for every stream of hits with normalised query intervals, two
hits end up in the same cluster of the interval partitioner if and only
if they are linked by a chain of pairwise-overlapping query intervals
(on one contig) within the stream — the clusters are the connected
components of the interval-overlap graph — and cluster membership is
unchanged under every reordering of the stream. -/
theorem partitioner_clusters_eq_connected_components (l : List Hit)
    (hv : ValidHits l) (h1 h2 : Hit) (h1m : h1 ∈ l) (h2m : h2 ∈ l) :
    (InSameCluster l h1 h2 ↔ Linked l h1 h2) ∧
      ∀ l', l.Perm l' → (InSameCluster l' h1 h2 ↔ InSameCluster l h1 h2) := by
  refine ⟨inSameCluster_iff_linked l hv h1 h2 h1m h2m, fun l' hperm => ?_⟩
  have hv' : ValidHits l' := fun x hx => hv x (hperm.mem_iff.mpr hx)
  rw [inSameCluster_iff_linked l' hv' h1 h2 (hperm.mem_iff.mp h1m)
    (hperm.mem_iff.mp h2m), inSameCluster_iff_linked l hv h1 h2 h1m h2m]
  constructor
  · exact linked_mono l' l (fun x hx => hperm.mem_iff.mpr hx) h1 h2
  · exact linked_mono l l' (fun x hx => hperm.mem_iff.mp hx) h1 h2

/-- C1 witness: the connected-component characterisation and the
order-independence, instantiated on the spec's two overlapping demo
hits and the reversed processing order. -/
theorem partitioner_clusters_eq_connected_components_witness :
    (InSameCluster [demoA, demoB] demoA demoB ↔ Linked [demoA, demoB] demoA demoB) ∧
      (InSameCluster [demoB, demoA] demoA demoB ↔
        InSameCluster [demoA, demoB] demoA demoB) := by
  have H := partitioner_clusters_eq_connected_components [demoA, demoB]
    (by unfold ValidHits; decide) demoA demoB (by decide) (by decide)
  exact ⟨H.1, H.2 [demoB, demoA] (by decide)⟩

/-- C2: in best-hit mode every non-empty cluster yields exactly one
result row, carrying a hit of the cluster that is maximal under the
descending lexicographic (alignment length, pid, plength) comparison;
on the spec's example keyed (100,99,100), (100,95,100), (90,99,100)
the (100,99,100) hit is selected. -/
theorem best_hit_mode_selects_key_maximum (c : List Hit) (hne : c ≠ []) :
    (∃ best ∈ c, selectHits false c = [best] ∧ ∀ h ∈ c, keyLt best h = false) ∧
      (selectHits false c).length ≤ 1 ∧
      selectHits false [exHitA, exHitB, exHitC] = [exHitA] := by
  obtain ⟨best, hsel, hfm⟩ := selectHits_false_eq c hne
  obtain ⟨pre, post, heq, hpre, hmax⟩ := firstMaxHit_spec c best hfm
  refine ⟨⟨best, ?_, hsel, hmax⟩, ?_, by decide⟩
  · rw [heq]
    exact List.mem_append.mpr (Or.inr (List.mem_cons_self _ _))
  · rw [hsel]
    exact le_refl 1

/-- C2 witness: the best-hit selection applied to the spec's concrete
three-hit cluster. -/
theorem best_hit_mode_selects_key_maximum_witness :
    (∃ best ∈ [exHitA, exHitB, exHitC],
        selectHits false [exHitA, exHitB, exHitC] = [best] ∧
          ∀ h ∈ [exHitA, exHitB, exHitC], keyLt best h = false) ∧
      (selectHits false [exHitA, exHitB, exHitC]).length ≤ 1 ∧
      selectHits false [exHitA, exHitB, exHitC] = [exHitA] :=
  best_hit_mode_selects_key_maximum [exHitA, exHitB, exHitC] (by decide)

/-- C3 counterexample: hit `cxB` passes both strict thresholds
(98 > 90 and 100 > 50), enters the partitioning, and still is not
included in the best-hit results (it loses its overlap cluster to
`cxA`), so inclusion in partitioning-and-results is not equivalent to
passing the thresholds. -/
theorem threshold_inclusion_counterexample :
    passesB 90 50 cxB = true ∧
      (∃ p ∈ buildPartitions ([cxA, cxB].filter (passesB 90 50)), cxB ∈ p.hits) ∧
      cxB ∉ handle_blast_hit 90 50 false [[cxA, cxB]] := by
  decide

/-- C3 (amended): a parsed hit enters the partitioning if and only if
its percent identity and percent length are strictly above the
thresholds (equality excluded); every hit included in the results
passed both thresholds; and in report-all mode inclusion in the
results is exactly inclusion in the partitioning. -/
theorem threshold_filter_strict (l : List Hit) (pidT plT : ℚ) (h : Hit) :
    (h ∈ l.filter (passesB pidT plT) ↔ (h ∈ l ∧ pidT < h.pid ∧ plT < h.plength)) ∧
      ((∃ p ∈ buildPartitions (l.filter (passesB pidT plT)), h ∈ p.hits) ↔
        (h ∈ l ∧ pidT < h.pid ∧ plT < h.plength)) ∧
      (h.pid = pidT → h ∉ l.filter (passesB pidT plT)) ∧
      (∀ ra : Bool, h ∈ handle_blast_hit pidT plT ra [l] →
        pidT < h.pid ∧ plT < h.plength) ∧
      (h ∈ handle_blast_hit pidT plT true [l] ↔
        ∃ p ∈ buildPartitions (l.filter (passesB pidT plT)), h ∈ p.hits) := by
  have hfil : h ∈ l.filter (passesB pidT plT) ↔
      (h ∈ l ∧ pidT < h.pid ∧ plT < h.plength) := by
    rw [List.mem_filter, passesB_iff]
  refine ⟨hfil, ?_, ?_, ?_, ?_⟩
  · rw [buildPartitions_mem, hfil]
  · intro hpe hmem
    exact absurd ((hfil.mp hmem).2.1) (by rw [hpe]; exact lt_irrefl pidT)
  · intro ra hmem
    rw [handle_single] at hmem
    exact (hfil.mp (mem_recordEmit_passes pidT plT ra l h hmem)).2
  · rw [handle_single]
    exact mem_recordEmit_true_iff pidT plT l h

/-- C3 witness: the amended threshold properties at the concrete
two-hit input with thresholds 90 and 50. -/
theorem threshold_filter_strict_witness :
    (cxA ∈ [cxA, cxB].filter (passesB 90 50) ↔
        (cxA ∈ [cxA, cxB] ∧ 90 < cxA.pid ∧ 50 < cxA.plength)) ∧
      ((∃ p ∈ buildPartitions ([cxA, cxB].filter (passesB 90 50)), cxA ∈ p.hits) ↔
        (cxA ∈ [cxA, cxB] ∧ 90 < cxA.pid ∧ 50 < cxA.plength)) ∧
      (cxA.pid = 90 → cxA ∉ [cxA, cxB].filter (passesB 90 50)) ∧
      (∀ ra : Bool, cxA ∈ handle_blast_hit 90 50 ra [[cxA, cxB]] →
        90 < cxA.pid ∧ 50 < cxA.plength) ∧
      (cxA ∈ handle_blast_hit 90 50 true [[cxA, cxB]] ↔
        ∃ p ∈ buildPartitions ([cxA, cxB].filter (passesB 90 50)), cxA ∈ p.hits) :=
  threshold_filter_strict [cxA, cxB] 90 50 cxA

/-- C4: in report-all mode a cluster of the partitioner emits exactly
one row per member hit — as many rows as cluster members, all of which
passed the threshold filter — and the emitted rows are a permutation
of the cluster sorted in descending (alignment length, pid, plength)
order. -/
theorem report_all_emits_every_cluster_hit (l : List Hit) (pidT plT : ℚ)
    (p : BlastHitPartition)
    (hp : p ∈ buildPartitions (l.filter (passesB pidT plT))) :
    (selectHits true p.hits).length = p.hits.length ∧
      (selectHits true p.hits).length = (p.hits.filter (passesB pidT plT)).length ∧
      (selectHits true p.hits).Perm p.hits ∧
      (selectHits true p.hits).Pairwise (fun a b => keyLt a b = false) := by
  have hperm : (selectHits true p.hits).Perm p.hits := by
    rw [selectHits_true_eq]
    exact sortHitsDesc_perm _
  have hall : p.hits.filter (passesB pidT plT) = p.hits := by
    apply List.filter_eq_self.mpr
    intro x hx
    exact (List.mem_filter.mp ((buildPartitions_mem _ x).mp ⟨p, hp, hx⟩)).2
  refine ⟨hperm.length_eq, ?_, hperm, ?_⟩
  · rw [hall]
    exact hperm.length_eq
  · rw [selectHits_true_eq]
    exact sortHitsDesc_sorted _

/-- C4 witness: the report-all row count and ordering on the concrete
single-member cluster produced by one passing hit. -/
theorem report_all_emits_every_cluster_hit_witness :
    (selectHits true (⟨"c", 1, 100, [cxA]⟩ : BlastHitPartition).hits).length =
        (⟨"c", 1, 100, [cxA]⟩ : BlastHitPartition).hits.length ∧
      (selectHits true (⟨"c", 1, 100, [cxA]⟩ : BlastHitPartition).hits).length =
        ((⟨"c", 1, 100, [cxA]⟩ : BlastHitPartition).hits.filter (passesB 90 50)).length ∧
      (selectHits true (⟨"c", 1, 100, [cxA]⟩ : BlastHitPartition).hits).Perm
        (⟨"c", 1, 100, [cxA]⟩ : BlastHitPartition).hits ∧
      (selectHits true (⟨"c", 1, 100, [cxA]⟩ : BlastHitPartition).hits).Pairwise
        (fun a b => keyLt a b = false) :=
  report_all_emits_every_cluster_hit [cxA] 90 50 ⟨"c", 1, 100, [cxA]⟩ (by decide)

/-- C6: threshold filtering happens before clustering — every hit found
inside any cluster of the partitioner passed both strict thresholds and
is one of the filtered hits that were appended to the partitioner. -/
theorem clustered_hits_passed_thresholds (l : List Hit) (pidT plT : ℚ)
    (p : BlastHitPartition)
    (hp : p ∈ buildPartitions (l.filter (passesB pidT plT)))
    (h : Hit) (hh : h ∈ p.hits) :
    passesB pidT plT h = true ∧ pidT < h.pid ∧ plT < h.plength ∧
      h ∈ l.filter (passesB pidT plT) := by
  have hm : h ∈ l.filter (passesB pidT plT) :=
    (buildPartitions_mem _ h).mp ⟨p, hp, hh⟩
  have hpass := (List.mem_filter.mp hm).2
  have hiff := (passesB_iff pidT plT h).mp hpass
  exact ⟨hpass, hiff.1, hiff.2, hm⟩

/-- C6 witness: the threshold invariant for the concrete one-hit
cluster built from one passing hit. -/
theorem clustered_hits_passed_thresholds_witness :
    passesB 90 50 cxA = true ∧ 90 < cxA.pid ∧ 50 < cxA.plength ∧
      cxA ∈ [cxA].filter (passesB 90 50) :=
  clustered_hits_passed_thresholds [cxA] 90 50 ⟨"c", 1, 100, [cxA]⟩
    (by decide) cxA (by decide)

/-- C8 counterexample: `tieA` and `tieB` agree on the entire sort key
(alignment length, pid, plength), `tieA` precedes `tieB` in the record
and therefore enters the partition earlier, yet the end-to-end best-hit
pipeline on the record `[tieA, tieB]` selects `tieB`: the spec-modelled
merge prepends the incoming hit, the cluster comes out as
`[tieB, tieA]`, and the stable sort keeps that order, so the
latest-entered hit of the full-key tie is selected, not the earliest. -/
theorem selection_tie_counterexample :
    tieA.alnLength = tieB.alnLength ∧ tieA.pid = tieB.pid ∧
      tieA.plength = tieB.plength ∧ tieA ≠ tieB ∧
      handle_blast_hit 90 50 false [[tieA, tieB]] = [tieB] := by
  decide

/-- C8 (amended): parsing is deterministic — two file systems that
agree on path existence and parsed record contents give the same
artifacts and the same selected rows in the same order — and within
every cluster the partitioner emits, best-hit selection returns the
first key-maximal hit of the cluster's member list (every hit before it
in that list has a strictly smaller key, so full-key ties resolve to
the earliest position in the emitted list; the sort is stable).  For
the spec-modelled partitioner, whose merge prepends the incoming hit,
that first position holds the latest-entered hit of a tie, as the
concrete conjunct shows. -/
theorem selection_deterministic_and_stable (fs1 fs2 : BlastFS)
    (outName : String → String) (pidT plT : ℚ) (ra : Bool)
    (m : List (String × List (String × String)))
    (hpe : ∀ s, fs1.pathExists s = fs2.pathExists s)
    (hre : ∀ s, fs1.records s = fs2.records s)
    (l : List Hit) (p : BlastHitPartition)
    (hp : p ∈ buildPartitions (l.filter (passesB pidT plT)))
    (hne : p.hits ≠ []) :
    parse_results fs1 outName pidT plT ra m =
        parse_results fs2 outName pidT plT ra m ∧
      (∃ best pre post, selectHits false p.hits = [best] ∧
        p.hits = pre ++ best :: post ∧ (∀ x ∈ pre, keyLt x best = true) ∧
        ∀ x ∈ p.hits, keyLt best x = false) ∧
      handle_blast_hit 90 50 false [[tieA, tieB]] = [tieB] := by
  have hfs : fs1 = fs2 := by
    cases fs1 with
    | mk pe1 re1 =>
      cases fs2 with
      | mk pe2 re2 =>
        congr 1
        · funext s
          exact hpe s
        · funext s
          exact hre s
  refine ⟨by rw [hfs], ?_, by decide⟩
  obtain ⟨best, hsel, hfm⟩ := selectHits_false_eq p.hits hne
  obtain ⟨pre, post, heq, hpre, hmax⟩ := firstMaxHit_spec p.hits best hfm
  exact ⟨best, pre, post, hsel, heq, hpre, hmax⟩

/-- C8 witness: determinism and first-position tie selection on the
cluster the partitioner actually emits for the record `[tieA, tieB]`,
namely `[tieB, tieA]` (incoming hits are prepended). -/
theorem selection_deterministic_and_stable_witness :
    parse_results ⟨fun _ => true, fun _ => []⟩ id 90 50 false [] =
        parse_results ⟨fun _ => true, fun _ => []⟩ id 90 50 false [] ∧
      (∃ best pre post,
        selectHits false (⟨"t", 1, 20, [tieB, tieA]⟩ : BlastHitPartition).hits =
            [best] ∧
          (⟨"t", 1, 20, [tieB, tieA]⟩ : BlastHitPartition).hits =
            pre ++ best :: post ∧
          (∀ x ∈ pre, keyLt x best = true) ∧
          ∀ x ∈ (⟨"t", 1, 20, [tieB, tieA]⟩ : BlastHitPartition).hits,
            keyLt best x = false) ∧
      handle_blast_hit 90 50 false [[tieA, tieB]] = [tieB] :=
  selection_deterministic_and_stable ⟨fun _ => true, fun _ => []⟩
    ⟨fun _ => true, fun _ => []⟩ id 90 50 false [] (fun _ => rfl) (fun _ => rfl)
    [tieA, tieB] ⟨"t", 1, 20, [tieB, tieA]⟩ (by decide) (by decide)

/-! ### Lemmas about the parse orchestration -/

lemma flatMap_ne_nil_iff {α β : Type} (l : List α) (f : α → List β) :
    l.flatMap f ≠ [] ↔ ∃ a ∈ l, f a ≠ [] := by
  constructor
  · intro h
    obtain ⟨x, hx⟩ := List.exists_mem_of_ne_nil _ h
    obtain ⟨a, ha, hxa⟩ := List.mem_flatMap.mp hx
    exact ⟨a, ha, List.ne_nil_of_mem hxa⟩
  · rintro ⟨a, ha, hf⟩
    obtain ⟨x, hx⟩ := List.exists_mem_of_ne_nil _ hf
    exact List.ne_nil_of_mem (List.mem_flatMap.mpr ⟨a, ha, hx⟩)

lemma selectHits_ne_nil (ra : Bool) (c : List Hit) (hc : c ≠ []) :
    selectHits ra c ≠ [] := by
  cases ra
  · obtain ⟨best, hsel, _⟩ := selectHits_false_eq c hc
    rw [hsel]
    simp
  · rw [selectHits_true_eq]
    intro he
    have hp := sortHitsDesc_perm c
    rw [he] at hp
    exact hc hp.nil_eq.symm

lemma recordEmit_ne_nil_iff (pidT plT : ℚ) (ra : Bool) (rec : List Hit) :
    recordEmit pidT plT ra rec ≠ [] ↔ ∃ h ∈ rec, passesB pidT plT h = true := by
  constructor
  · intro hne
    obtain ⟨x, hx⟩ := List.exists_mem_of_ne_nil _ hne
    have hf := List.mem_filter.mp (mem_recordEmit_passes pidT plT ra rec x hx)
    exact ⟨x, hf.1, hf.2⟩
  · rintro ⟨h, hh, hp⟩
    have hmem : h ∈ rec.filter (passesB pidT plT) := List.mem_filter.mpr ⟨hh, hp⟩
    obtain ⟨p, hp', hph⟩ := (buildPartitions_mem _ h).mpr hmem
    have hne2 := selectHits_ne_nil ra p.hits (List.ne_nil_of_mem hph)
    obtain ⟨y, hy⟩ := List.exists_mem_of_ne_nil _ hne2
    refine List.ne_nil_of_mem (a := y) ?_
    unfold recordEmit getHitsNonoverlappingRegions
    exact List.mem_flatMap.mpr ⟨p.hits, List.mem_map_of_mem _ hp', hy⟩

lemma handle_blast_hit_ne_nil_iff (pidT plT : ℚ) (ra : Bool)
    (recs : List (List Hit)) :
    handle_blast_hit pidT plT ra recs ≠ [] ↔
      ∃ rec ∈ recs, ∃ h ∈ rec, passesB pidT plT h = true := by
  unfold handle_blast_hit
  rw [flatMap_ne_nil_iff]
  simp only [recordEmit_ne_nil_iff]

lemma databaseRows_ne_nil_iff (fs : BlastFS) (pidT plT : ℚ) (ra : Bool)
    (dbs : List (String × String)) :
    databaseRows fs pidT plT ra dbs ≠ [] ↔
      ∃ d ∈ dbs, ∃ rec ∈ fs.records d.2, ∃ h ∈ rec, passesB pidT plT h = true := by
  unfold databaseRows
  rw [flatMap_ne_nil_iff]
  simp only [ne_eq, List.map_eq_nil_iff, handle_blast_hit_ne_nil_iff]

lemma processDatabases_missing (fs : BlastFS) (pidT plT : ℚ) (ra : Bool)
    (dbs : List (String × String)) (db p : String)
    (hmem : (db, p) ∈ dbs) (hne : fs.pathExists p = false) :
    processDatabases fs pidT plT ra dbs = Except.error () := by
  induction dbs with
  | nil => cases hmem
  | cons hd tl ih =>
    obtain ⟨dbName, blastOut⟩ := hd
    rcases List.mem_cons.mp hmem with heq | hmem'
    · have h1 : p = blastOut := congrArg Prod.snd heq
      subst h1
      simp [processDatabases, hne]
    · by_cases hb : fs.pathExists blastOut = true
      · have heq2 := ih hmem'
        simp only [processDatabases]
        rw [if_pos hb, heq2]
      · simp only [processDatabases]
        rw [if_neg hb]

lemma processDatabases_ok (fs : BlastFS) (pidT plT : ℚ) (ra : Bool)
    (dbs : List (String × String)) (rows : List (String × Hit))
    (h : processDatabases fs pidT plT ra dbs = Except.ok rows) :
    rows = databaseRows fs pidT plT ra dbs := by
  induction dbs generalizing rows with
  | nil =>
    simp only [processDatabases] at h
    obtain rfl := (Except.ok.inj h).symm
    simp [databaseRows]
  | cons hd tl ih =>
    obtain ⟨dbName, blastOut⟩ := hd
    simp only [processDatabases] at h
    by_cases hb : fs.pathExists blastOut = true
    · rw [if_pos hb] at h
      cases htl : processDatabases fs pidT plT ra tl with
      | error e =>
        rw [htl] at h
        exact absurd h (by simp)
      | ok tailRows =>
        rw [htl] at h
        obtain rfl := (Except.ok.inj h).symm
        have hcons : databaseRows fs pidT plT ra ((dbName, blastOut) :: tl) =
            (handle_blast_hit pidT plT ra (fs.records blastOut)).map
              (fun h => (dbName, h)) ++ databaseRows fs pidT plT ra tl := by
          simp [databaseRows]
        rw [hcons, ← ih tailRows htl]
    · rw [if_neg hb] at h
      exact absurd h (by simp)

lemma parse_results_error_of_missing (fs : BlastFS) (outName : String → String)
    (pidT plT : ℚ) (ra : Bool) (m : List (String × List (String × String)))
    (f : String) (dbs : List (String × String)) (db p : String)
    (hfm : (f, dbs) ∈ m) (hdm : (db, p) ∈ dbs) (hne : fs.pathExists p = false) :
    (parse_results fs outName pidT plT ra m).2 = Except.error () := by
  induction m with
  | nil => cases hfm
  | cons hd rest ih =>
    obtain ⟨g, gdbs⟩ := hd
    rcases List.mem_cons.mp hfm with heq | hfm'
    · have h2 : dbs = gdbs := congrArg Prod.snd heq
      subst h2
      simp [parse_results, processDatabases_missing fs pidT plT ra dbs db p hdm hne]
    · cases hpd : processDatabases fs pidT plT ra gdbs with
      | error e =>
        simp [parse_results, hpd]
      | ok fileRows =>
        have ihh := ih hfm'
        simp [parse_results, hpd, ihh, Except.map]

lemma parse_results_ok_artifacts (fs : BlastFS) (outName : String → String)
    (pidT plT : ℚ) (ra : Bool) (m : List (String × List (String × String)))
    (rows : List (String × Hit))
    (h : (parse_results fs outName pidT plT ra m).2 = Except.ok rows) :
    (parse_results fs outName pidT plT ra m).1 =
      fileArtifacts fs outName pidT plT ra m := by
  induction m generalizing rows with
  | nil => simp [parse_results, fileArtifacts]
  | cons hd rest ih =>
    obtain ⟨file, dbs⟩ := hd
    cases hpd : processDatabases fs pidT plT ra dbs with
    | error e =>
      simp [parse_results, hpd] at h
    | ok fileRows =>
      have hrows := processDatabases_ok fs pidT plT ra dbs fileRows hpd
      subst hrows
      cases hrest : (parse_results fs outName pidT plT ra rest).2 with
      | error e =>
        simp [parse_results, hpd, hrest, Except.map] at h
      | ok tailRows =>
        have iha := ih tailRows hrest
        cases hdb : databaseRows fs pidT plT ra dbs with
        | nil =>
          simp [parse_results, hpd, hdb, fileArtifacts, List.filterMap_cons, iha]
        | cons r rs =>
          simp [parse_results, hpd, hdb, fileArtifacts, List.filterMap_cons, iha]

lemma mem_fileArtifacts_names (fs : BlastFS) (outName : String → String)
    (pidT plT : ℚ) (ra : Bool) (m : List (String × List (String × String)))
    (nm : String) :
    nm ∈ (fileArtifacts fs outName pidT plT ra m).map Prod.fst ↔
      ∃ fd ∈ m, databaseRows fs pidT plT ra fd.2 ≠ [] ∧ nm = outName fd.1 := by
  induction m with
  | nil => simp [fileArtifacts]
  | cons hd rest ih =>
    cases hdb : databaseRows fs pidT plT ra hd.2 with
    | nil =>
      rw [show fileArtifacts fs outName pidT plT ra (hd :: rest) =
          fileArtifacts fs outName pidT plT ra rest by
        simp [fileArtifacts, List.filterMap_cons, hdb]]
      rw [ih]
      constructor
      · rintro ⟨fd, hfd, hne, hnm⟩
        exact ⟨fd, List.mem_cons_of_mem _ hfd, hne, hnm⟩
      · rintro ⟨fd, hfd, hne, hnm⟩
        rcases List.mem_cons.mp hfd with rfl | hfd'
        · exact absurd hdb hne
        · exact ⟨fd, hfd', hne, hnm⟩
    | cons r rs =>
      rw [show fileArtifacts fs outName pidT plT ra (hd :: rest) =
          (outName hd.1, (databaseRows fs pidT plT ra hd.2).map (fun x => x.2)) ::
            fileArtifacts fs outName pidT plT ra rest by
        simp [fileArtifacts, List.filterMap_cons, hdb]]
      simp only [List.map_cons, List.mem_cons, ih]
      constructor
      · rintro (hnm | ⟨fd, hfd, hne, hnm⟩)
        · exact ⟨hd, Or.inl rfl, by rw [hdb]; simp, hnm⟩
        · exact ⟨fd, Or.inr hfd, hne, hnm⟩
      · rintro ⟨fd, hfd, hne, hnm⟩
        rcases hfd with rfl | hfd'
        · exact Or.inl hnm
        · exact Or.inr ⟨fd, hfd', hne, hnm⟩

lemma fileArtifacts_names_sublist (fs : BlastFS) (outName : String → String)
    (pidT plT : ℚ) (ra : Bool) (m : List (String × List (String × String))) :
    ((fileArtifacts fs outName pidT plT ra m).map Prod.fst).Sublist
      (m.map (fun fd => outName fd.1)) := by
  induction m with
  | nil => simp [fileArtifacts]
  | cons hd rest ih =>
    cases hdb : databaseRows fs pidT plT ra hd.2 with
    | nil =>
      rw [show fileArtifacts fs outName pidT plT ra (hd :: rest) =
          fileArtifacts fs outName pidT plT ra rest by
        simp [fileArtifacts, List.filterMap_cons, hdb]]
      exact List.Sublist.cons _ ih
    | cons r rs =>
      rw [show fileArtifacts fs outName pidT plT ra (hd :: rest) =
          (outName hd.1, (databaseRows fs pidT plT ra hd.2).map (fun x => x.2)) ::
            fileArtifacts fs outName pidT plT ra rest by
        simp [fileArtifacts, List.filterMap_cons, hdb]]
      exact List.Sublist.cons₂ _ ih

lemma eq_of_fst_eq_of_nodup {α β : Type} (m : List (α × β))
    (hnd : (m.map Prod.fst).Nodup) (x y : α × β)
    (hx : x ∈ m) (hy : y ∈ m) (he : x.1 = y.1) : x = y := by
  induction m with
  | nil => cases hx
  | cons hd tl ih =>
    rw [List.map_cons, List.nodup_cons] at hnd
    rcases List.mem_cons.mp hx with rfl | hx' <;>
      rcases List.mem_cons.mp hy with rfl | hy'
    · rfl
    · exact absurd (he ▸ List.mem_map_of_mem Prod.fst hy') hnd.1
    · exact absurd (he ▸ List.mem_map_of_mem Prod.fst hx') hnd.1
    · exact ih hnd.2 hx' hy'

lemma parse_results_no_artifact_of_missing (fs : BlastFS)
    (outName : String → String) (pidT plT : ℚ) (ra : Bool)
    (m : List (String × List (String × String)))
    (f : String) (dbs : List (String × String)) (db p : String)
    (hinj : Function.Injective outName) (hnd : (m.map Prod.fst).Nodup)
    (hfm : (f, dbs) ∈ m) (hdm : (db, p) ∈ dbs) (hne : fs.pathExists p = false) :
    ∀ a ∈ (parse_results fs outName pidT plT ra m).1, a.1 ≠ outName f := by
  induction m with
  | nil => simp [parse_results]
  | cons hd rest ih =>
    obtain ⟨g, gdbs⟩ := hd
    rcases List.mem_cons.mp hfm with heq | hfm'
    · have h2 : dbs = gdbs := congrArg Prod.snd heq
      subst h2
      simp [parse_results, processDatabases_missing fs pidT plT ra dbs db p hdm hne]
    · have hg : g ∉ rest.map Prod.fst := by
        have hc := hnd
        rw [List.map_cons, List.nodup_cons] at hc
        exact hc.1
      have hnd' : (rest.map Prod.fst).Nodup := by
        have hc := hnd
        rw [List.map_cons, List.nodup_cons] at hc
        exact hc.2
      have hgf : g ≠ f := by
        intro hgg
        apply hg
        rw [hgg]
        exact List.mem_map_of_mem Prod.fst hfm'
      cases hpd : processDatabases fs pidT plT ra gdbs with
      | error e =>
        simp [parse_results, hpd]
      | ok fileRows =>
        have ihh := ih hnd' hfm'
        intro a ha
        simp only [parse_results, hpd] at ha
        by_cases hemp : (fileRows.map (fun r => r.2)).isEmpty = true
        · rw [if_pos hemp] at ha
          exact ihh a ha
        · rw [if_neg hemp] at ha
          rcases List.mem_cons.mp ha with rfl | ha'
          · intro hcon
            exact hgf (hinj hcon)
          · exact ihh a ha'

/-- C5: when the expected BLAST output file of some (input file,
database) pair is absent, `parse_results` raises its exception
("Blast output [...] does not exist"): the whole parse of the
invocation aborts with the error, no tabular result is returned, and
there is no retry and no skip-and-continue. -/
theorem missing_blast_output_aborts_parse (fs : BlastFS)
    (outName : String → String) (pidT plT : ℚ) (ra : Bool)
    (m : List (String × List (String × String)))
    (f : String) (dbs : List (String × String)) (db p : String)
    (hfm : (f, dbs) ∈ m) (hdm : (db, p) ∈ dbs) (hne : fs.pathExists p = false) :
    (parse_results fs outName pidT plT ra m).2 = Except.error () ∧
      ∀ rows, (parse_results fs outName pidT plT ra m).2 ≠ Except.ok rows := by
  have h := parse_results_error_of_missing fs outName pidT plT ra m f dbs db p
    hfm hdm hne
  refine ⟨h, fun rows hc => ?_⟩
  rw [h] at hc
  cases hc

/-- C5 witness: a parse invocation whose single BLAST output file is
missing ends in the raised error and returns no result rows. -/
theorem missing_blast_output_aborts_parse_witness :
    (parse_results ⟨fun _ => false, fun _ => []⟩ id 90 50 false
        [("f1", [("db1", "out1")])]).2 = Except.error () ∧
      ∀ rows, (parse_results ⟨fun _ => false, fun _ => []⟩ id 90 50 false
        [("f1", [("db1", "out1")])]).2 ≠ Except.ok rows :=
  missing_blast_output_aborts_parse ⟨fun _ => false, fun _ => []⟩ id 90 50 false
    [("f1", [("db1", "out1")])] "f1" [("db1", "out1")] "db1" "out1"
    (by decide) (by decide) rfl

/-- C7: on a successful parse, no written sequence artifact is empty,
at most one artifact exists per input file (artifact names are
distinct), and the artifact named after an input file exists if and
only if some database of that file has a record with a
threshold-passing hit. -/
theorem sequence_artifact_iff_qualifying_hit (fs : BlastFS)
    (outName : String → String) (pidT plT : ℚ) (ra : Bool)
    (m : List (String × List (String × String))) (rows : List (String × Hit))
    (hinj : Function.Injective outName) (hnd : (m.map Prod.fst).Nodup)
    (hok : (parse_results fs outName pidT plT ra m).2 = Except.ok rows) :
    (∀ a ∈ (parse_results fs outName pidT plT ra m).1, a.2 ≠ []) ∧
      ((parse_results fs outName pidT plT ra m).1.map Prod.fst).Nodup ∧
      ∀ fd ∈ m,
        (outName fd.1 ∈ (parse_results fs outName pidT plT ra m).1.map Prod.fst ↔
          ∃ d ∈ fd.2, ∃ rec ∈ fs.records d.2, ∃ h ∈ rec,
            passesB pidT plT h = true) := by
  rw [parse_results_ok_artifacts fs outName pidT plT ra m rows hok]
  refine ⟨?_, ?_, ?_⟩
  · intro a ha
    obtain ⟨fd, hfd, hsome⟩ := List.mem_filterMap.mp ha
    by_cases hdb : (databaseRows fs pidT plT ra fd.2).isEmpty = true
    · rw [if_pos hdb] at hsome
      cases hsome
    · rw [if_neg hdb] at hsome
      obtain rfl := (Option.some.inj hsome).symm
      intro hmap
      rw [List.map_eq_nil_iff] at hmap
      exact hdb (by rw [hmap]; rfl)
  · refine List.Nodup.sublist (fileArtifacts_names_sublist fs outName pidT plT ra m) ?_
    have hmm : m.map (fun fd => outName fd.1) = (m.map Prod.fst).map outName := by
      rw [List.map_map]
      rfl
    rw [hmm]
    exact hnd.map hinj
  · intro fd hfd
    rw [mem_fileArtifacts_names, ← databaseRows_ne_nil_iff fs pidT plT ra fd.2]
    constructor
    · rintro ⟨fd', hfd', hne', hnm⟩
      have he : fd = fd' := eq_of_fst_eq_of_nodup m hnd fd fd' hfd hfd' (hinj hnm)
      rw [he]
      exact hne'
    · intro hne'
      exact ⟨fd, hfd, hne', rfl⟩

/-- C7 witness: one input file producing one passing hit gets exactly
one non-empty artifact, whose presence is equivalent to the passing
hit's existence. -/
theorem sequence_artifact_iff_qualifying_hit_witness :
    (∀ a ∈ (parse_results ⟨fun _ => true, fun _ => [[cxA]]⟩ id 90 50 false
        [("f1", [("db1", "o1")])]).1, a.2 ≠ []) ∧
      ((parse_results ⟨fun _ => true, fun _ => [[cxA]]⟩ id 90 50 false
        [("f1", [("db1", "o1")])]).1.map Prod.fst).Nodup ∧
      ∀ fd ∈ [("f1", [("db1", "o1")])],
        (id fd.1 ∈ (parse_results ⟨fun _ => true, fun _ => [[cxA]]⟩ id 90 50 false
            [("f1", [("db1", "o1")])]).1.map Prod.fst ↔
          ∃ d ∈ fd.2, ∃ rec ∈ (⟨fun _ => true, fun _ => [[cxA]]⟩ : BlastFS).records d.2,
            ∃ h ∈ rec, passesB 90 50 h = true) :=
  sequence_artifact_iff_qualifying_hit ⟨fun _ => true, fun _ => [[cxA]]⟩ id 90 50
    false [("f1", [("db1", "o1")])] [("db1", cxA)] Function.injective_id
    (by decide) rfl

/-- C9 (code bug): the BLAST file handle of `_handle_blast_hit` is
closed only after the record loop finishes normally; when producing a
record raises mid-stream, the exception propagates past the final
`blast_handle.close()` and the handle is not released on that exit
path (there is no try/finally or with-statement), while the normal
path does close it. -/
theorem handle_not_closed_on_midstream_error :
    (handle_blast_hit_with_handle 90 50 false
        [Except.ok [cxA], Except.error ()]).2 = false ∧
      (handle_blast_hit_with_handle 90 50 false [Except.ok [cxA]]).2 = true :=
  ⟨rfl, rfl⟩

/-- C10: the per-database existence check runs before the database is
parsed and before the file's artifact write, so a missing BLAST output
for an input file means the invocation errors, returns no tabular
result, and writes no sequence artifact named after that file. -/
theorem missing_output_error_atomicity (fs : BlastFS)
    (outName : String → String) (pidT plT : ℚ) (ra : Bool)
    (m : List (String × List (String × String)))
    (f : String) (dbs : List (String × String)) (db p : String)
    (hinj : Function.Injective outName) (hnd : (m.map Prod.fst).Nodup)
    (hfm : (f, dbs) ∈ m) (hdm : (db, p) ∈ dbs) (hne : fs.pathExists p = false) :
    (parse_results fs outName pidT plT ra m).2 = Except.error () ∧
      ∀ a ∈ (parse_results fs outName pidT plT ra m).1, a.1 ≠ outName f :=
  ⟨parse_results_error_of_missing fs outName pidT plT ra m f dbs db p hfm hdm hne,
    parse_results_no_artifact_of_missing fs outName pidT plT ra m f dbs db p
      hinj hnd hfm hdm hne⟩

/-- C10 witness: with the first file's output present and the second
file's output missing, the parse errors and no artifact carries the
second file's output name. -/
theorem missing_output_error_atomicity_witness :
    (parse_results ⟨fun s => decide (s = "o1"), fun _ => [[cxA]]⟩ id 90 50 false
        [("f1", [("db1", "o1")]), ("f2", [("db2", "o2")])]).2 = Except.error () ∧
      ∀ a ∈ (parse_results ⟨fun s => decide (s = "o1"), fun _ => [[cxA]]⟩ id 90 50
        false [("f1", [("db1", "o1")]), ("f2", [("db2", "o2")])]).1,
          a.1 ≠ id "f2" :=
  missing_output_error_atomicity ⟨fun s => decide (s = "o1"), fun _ => [[cxA]]⟩
    id 90 50 false [("f1", [("db1", "o1")]), ("f2", [("db2", "o2")])]
    "f2" [("db2", "o2")] "db2" "o2" Function.injective_id
    (by decide) (by decide) (by decide) (by decide)
